import Mathlib

/-!
Verification of the authentication core of `supra-multiwallet`
(`src/lib/auth.ts` and the API route handlers under `src/app/api/auth/`).

The TypeScript source is shallowly embedded as executable Lean definitions:

* strings are `List Char`; JavaScript numbers that hold epoch timestamps are
  `Nat`/`Int` (they stay far below 2^53, so double-precision arithmetic on
  them is exact);
* `jose`'s HS256 JWTs are modelled symbolically: signing serialises the
  claims together with a MAC tag that is the recomputation of an idealised
  keyed function of (secret, claims), and verification recomputes the tag
  and compares — exactly the recompute-and-compare discipline of HMAC,
  idealised so that a tag matches iff secret and signed content match;
* code that throws and is caught is modelled with `Option`/`Except` and an
  explicit catch at the same place the source has its `try`/`catch`;
* the Ed25519 core of `nacl.sign.detached.verify` is kept abstract as a
  parameter `core : List Char → List Nat → List Nat → Bool` (message,
  signature bytes, public-key bytes); nothing proved here depends on the
  mathematics of Ed25519, only on the length checks nacl performs before
  reaching it and on which arguments the source passes to it.
-/

namespace SupraAuth

/-- The ten decimal digit characters. `digitChar d` is the character for
`d < 10` (callers only use it in that range; the catch-all mirrors a total
function). Used to model JavaScript's `Number.prototype.toString()` on the
natural timestamps produced by `Date.now()`. -/
def digitChar (d : Nat) : Char :=
  match d with
  | 0 => '0' | 1 => '1' | 2 => '2' | 3 => '3' | 4 => '4'
  | 5 => '5' | 6 => '6' | 7 => '7' | 8 => '8' | _ => '9'

/-- Fuel-indexed decimal printer (structural recursion so that the kernel can
evaluate it inside `decide`). -/
def natToDigitsAux : Nat → Nat → List Char
  | 0, _ => []
  | fuel + 1, n =>
    if n < 10 then [digitChar n]
    else natToDigitsAux fuel (n / 10) ++ [digitChar (n % 10)]

/-- Decimal representation of a natural number, most significant digit first:
the model of `n.toString()` for the non-negative integers handled by the
source (`Date.now()` values). -/
def natToDigits (n : Nat) : List Char := natToDigitsAux (n + 1) n

/-- Numeric value of a digit character (`'0'` ↦ 0, …, `'9'` ↦ 9). -/
def digitVal (c : Char) : Nat := c.toNat - 48

/-- Accumulator form of reading a digit string left to right. -/
def digitsValAux (acc : Nat) : List Char → Nat
  | [] => acc
  | c :: cs => digitsValAux (acc * 10 + digitVal c) cs

/-- The whitespace characters JavaScript's `parseInt` skips (the common ones;
the source only ever parses digit strings, where this is irrelevant). -/
def jsSpace (c : Char) : Bool := c = ' ' || c = '\t' || c = '\n' || c = '\r'

/-- Longest digit prefix, as `parseInt` reads it; `none` models `NaN`. -/
def parseDigits (l : List Char) : Option Nat :=
  let ds := l.takeWhile Char.isDigit
  if ds.isEmpty then none else some (digitsValAux 0 ds)

/-- Model of JavaScript `parseInt(s, 10)`: skip whitespace, optional sign,
then the longest digit prefix; `none` models `NaN`. -/
def parseIntJs (s : List Char) : Option Int :=
  let s1 := s.dropWhile jsSpace
  if s1.head? = some '-' then (parseDigits s1.tail).map (fun n => -(n : Int))
  else if s1.head? = some '+' then (parseDigits s1.tail).map (fun n => (n : Int))
  else (parseDigits s1).map (fun n => (n : Int))

theorem digitChar_isDigit (d : Nat) : (digitChar d).isDigit = true := by
  unfold digitChar
  split <;> rfl

theorem digitChar_ne_bar (d : Nat) : digitChar d ≠ '|' := by
  unfold digitChar
  split <;> decide

theorem digitChar_ne_dot (d : Nat) : digitChar d ≠ '.' := by
  unfold digitChar
  split <;> decide

theorem digitVal_digitChar (d : Nat) (h : d < 10) : digitVal (digitChar d) = d := by
  interval_cases d <;> rfl

theorem natToDigitsAux_fuel_irrel :
    ∀ fuel fuel2 n, n < fuel → n < fuel2 →
      natToDigitsAux fuel n = natToDigitsAux fuel2 n := by
  intro fuel
  induction fuel with
  | zero => intro fuel2 n h; omega
  | succ f ih =>
    intro fuel2 n h h2
    cases fuel2 with
    | zero => omega
    | succ f2 =>
      simp only [natToDigitsAux]
      by_cases hn : n < 10
      · simp [hn]
      · have hd : n / 10 < f := by
          have : n / 10 < n := Nat.div_lt_self (by omega) (by omega)
          omega
        have hd2 : n / 10 < f2 := by
          have : n / 10 < n := Nat.div_lt_self (by omega) (by omega)
          omega
        simp [hn, ih f2 (n / 10) hd hd2]

theorem natToDigits_eq_aux (fuel n : Nat) (h : n < fuel) :
    natToDigits n = natToDigitsAux fuel n :=
  natToDigitsAux_fuel_irrel (n + 1) fuel n (Nat.lt_succ_self n) h

theorem mem_natToDigitsAux_isDigit :
    ∀ fuel n c, c ∈ natToDigitsAux fuel n → c.isDigit = true := by
  intro fuel
  induction fuel with
  | zero => intro n c h; simp [natToDigitsAux] at h
  | succ f ih =>
    intro n c h
    simp only [natToDigitsAux] at h
    by_cases hn : n < 10
    · simp [hn] at h
      subst h
      exact digitChar_isDigit n
    · simp [hn, List.mem_append] at h
      rcases h with h | h
      · exact ih (n / 10) c h
      · subst h
        exact digitChar_isDigit (n % 10)

theorem mem_natToDigits_isDigit (n : Nat) (c : Char) (h : c ∈ natToDigits n) :
    c.isDigit = true :=
  mem_natToDigitsAux_isDigit (n + 1) n c h

theorem natToDigits_ne_nil (n : Nat) : natToDigits n ≠ [] := by
  unfold natToDigits natToDigitsAux
  by_cases hn : n < 10
  · simp [hn]
  · simp [hn]

theorem digitsValAux_append (a : Nat) (l1 l2 : List Char) :
    digitsValAux a (l1 ++ l2) = digitsValAux (digitsValAux a l1) l2 := by
  induction l1 generalizing a with
  | nil => rfl
  | cons c cs ih =>
    rw [List.cons_append]
    show digitsValAux (a * 10 + digitVal c) (cs ++ l2) = _
    rw [ih]
    rfl

theorem digitsValAux_singleton (x : Nat) (c : Char) :
    digitsValAux x [c] = x * 10 + digitVal c := rfl

theorem digitsValAux_natToDigitsAux :
    ∀ fuel n a, n < fuel →
      digitsValAux a (natToDigitsAux fuel n) =
        a * 10 ^ (natToDigitsAux fuel n).length + n := by
  intro fuel
  induction fuel with
  | zero => intro n a h; omega
  | succ f ih =>
    intro n a h
    simp only [natToDigitsAux]
    by_cases hn : n < 10
    · rw [if_pos hn]
      show a * 10 + digitVal (digitChar n) = a * 10 ^ [digitChar n].length + n
      rw [digitVal_digitChar n hn]
      simp
    · have hd : n / 10 < f := by
        have : n / 10 < n := Nat.div_lt_self (by omega) (by omega)
        omega
      rw [if_neg hn, digitsValAux_append, ih (n / 10) a hd, digitsValAux_singleton,
        digitVal_digitChar (n % 10) (Nat.mod_lt n (by omega)), List.length_append,
        List.length_singleton]
      have h2 : (a * 10 ^ (natToDigitsAux f (n / 10)).length + n / 10) * 10 + n % 10 =
          a * (10 ^ (natToDigitsAux f (n / 10)).length * 10) + (10 * (n / 10) + n % 10) := by
        ring
      rw [h2, Nat.div_add_mod, pow_succ]

theorem digitsVal_natToDigits (n : Nat) : digitsValAux 0 (natToDigits n) = n := by
  have h := digitsValAux_natToDigitsAux (n + 1) n 0 (Nat.lt_succ_self n)
  simpa using h

theorem takeWhile_of_all {p : Char → Bool} :
    ∀ l : List Char, (∀ c ∈ l, p c = true) → l.takeWhile p = l := by
  intro l
  induction l with
  | nil => intro _; rfl
  | cons c cs ih =>
    intro h
    have hc : p c = true := h c (List.mem_cons_self c cs)
    simp only [List.takeWhile, hc, List.cons.injEq, true_and]
    exact ih (fun x hx => h x (List.mem_cons_of_mem c hx))

theorem parseDigits_natToDigits (n : Nat) : parseDigits (natToDigits n) = some n := by
  unfold parseDigits
  rw [takeWhile_of_all (natToDigits n) (fun c hc => mem_natToDigits_isDigit n c hc)]
  have hne : (natToDigits n).isEmpty = false := by
    cases h : natToDigits n with
    | nil => exact absurd h (natToDigits_ne_nil n)
    | cons a l => rfl
  simp [hne, digitsVal_natToDigits n]

theorem jsSpace_eq_false_of_isDigit {c : Char} (hc : c.isDigit = true) :
    jsSpace c = false := by
  cases hsp : jsSpace c with
  | false => rfl
  | true =>
    exfalso
    unfold jsSpace at hsp
    simp only [Bool.or_eq_true, decide_eq_true_eq] at hsp
    rcases hsp with ((h1 | h1) | h1) | h1 <;> (subst h1; exact absurd hc (by decide))

theorem parseIntJs_natToDigits (n : Nat) : parseIntJs (natToDigits n) = some (n : Int) := by
  cases h : natToDigits n with
  | nil => exact absurd h (natToDigits_ne_nil n)
  | cons c rest =>
    have hc : c.isDigit = true := by
      apply mem_natToDigits_isDigit n
      rw [h]
      exact List.mem_cons_self c rest
    have hspace : jsSpace c = false := jsSpace_eq_false_of_isDigit hc
    have hminus : c ≠ '-' := by
      intro hcm; subst hcm; exact absurd hc (by decide)
    have hplus : c ≠ '+' := by
      intro hcp; subst hcp; exact absurd hc (by decide)
    have hdrop : (c :: rest).dropWhile jsSpace = c :: rest := by
      simp [List.dropWhile, hspace]
    have hpd : parseDigits (c :: rest) = some n := by
      rw [← h]; exact parseDigits_natToDigits n
    rw [← h]
    unfold parseIntJs
    rw [h, hdrop]
    simp only [List.head?, Option.some.injEq]
    rw [if_neg hminus, if_neg hplus]
    simp [hpd]

/-- Model of JavaScript `String.prototype.split` with a one-character
separator: `splitOnChar sep l` is the list of maximal separator-free
segments of `l`. Like in JavaScript, the empty string splits into one
empty part. -/
def splitOnChar (sep : Char) : List Char → List (List Char)
  | [] => [[]]
  | c :: cs =>
    match splitOnChar sep cs with
    | [] => [[]]
    | p :: ps => if c = sep then [] :: p :: ps else (c :: p) :: ps

theorem splitOnChar_cons_eq (sep c : Char) (cs p : List Char) (ps : List (List Char))
    (h : splitOnChar sep cs = p :: ps) :
    splitOnChar sep (c :: cs) =
      if c = sep then [] :: p :: ps else (c :: p) :: ps := by
  simp only [splitOnChar, h]

theorem splitOnChar_ne_nil (sep : Char) (l : List Char) : splitOnChar sep l ≠ [] := by
  induction l with
  | nil => simp [splitOnChar]
  | cons c cs ih =>
    cases h : splitOnChar sep cs with
    | nil => exact absurd h ih
    | cons p ps =>
      rw [splitOnChar_cons_eq sep c cs p ps h]
      by_cases hc : c = sep <;> simp [hc]

theorem splitOnChar_no_sep (sep : Char) (l : List Char) (h : sep ∉ l) :
    splitOnChar sep l = [l] := by
  induction l with
  | nil => rfl
  | cons c cs ih =>
    have hcs : sep ∉ cs := fun hm => h (List.mem_cons_of_mem c hm)
    have hc : c ≠ sep := fun he => h (he ▸ List.mem_cons_self c cs)
    rw [splitOnChar_cons_eq sep c cs cs [] (ih hcs), if_neg hc]

theorem splitOnChar_append_sep (sep : Char) (xs ys : List Char) (h : sep ∉ xs) :
    splitOnChar sep (xs ++ sep :: ys) = xs :: splitOnChar sep ys := by
  induction xs with
  | nil =>
    rw [List.nil_append]
    cases hy : splitOnChar sep ys with
    | nil => exact absurd hy (splitOnChar_ne_nil sep ys)
    | cons p ps =>
      rw [splitOnChar_cons_eq sep sep ys p ps hy, if_pos rfl]
  | cons c cs ih =>
    have hcs : sep ∉ cs := fun hm => h (List.mem_cons_of_mem c hm)
    have hc : c ≠ sep := fun he => h (he ▸ List.mem_cons_self c cs)
    rw [List.cons_append]
    cases hy : splitOnChar sep ys with
    | nil => exact absurd hy (splitOnChar_ne_nil sep ys)
    | cons p ps =>
      have hmid : splitOnChar sep (cs ++ sep :: ys) = cs :: p :: ps := by
        rw [ih hcs, hy]
      rw [splitOnChar_cons_eq sep c (cs ++ sep :: ys) cs (p :: ps) hmid, if_neg hc]

theorem splitOnChar_length (sep : Char) (l : List Char) :
    (splitOnChar sep l).length = l.count sep + 1 := by
  induction l with
  | nil => rfl
  | cons c cs ih =>
    cases h : splitOnChar sep cs with
    | nil => exact absurd h (splitOnChar_ne_nil sep cs)
    | cons p ps =>
      rw [h] at ih
      rw [splitOnChar_cons_eq sep c cs p ps h]
      by_cases hc : c = sep
      · subst hc
        rw [if_pos rfl]
        simp only [List.length_cons] at ih ⊢
        rw [List.count_cons_self]
        omega
      · rw [if_neg hc]
        have hcount : (c :: cs).count sep = cs.count sep := by
          rw [List.count_cons]
          simp [hc, Ne.symm hc]
        rw [hcount]
        simp only [List.length_cons] at ih ⊢
        omega

/-- Joining parts back with the separator (the inverse direction of
`splitOnChar`). -/
def joinSep (sep : Char) : List (List Char) → List Char
  | [] => []
  | [p] => p
  | p :: ps => p ++ sep :: joinSep sep ps

theorem joinSep_cons₂ (sep : Char) (x y : List Char) (t : List (List Char)) :
    joinSep sep (x :: y :: t) = x ++ sep :: joinSep sep (y :: t) := rfl

theorem joinSep_splitOnChar (sep : Char) (l : List Char) :
    joinSep sep (splitOnChar sep l) = l := by
  induction l with
  | nil => rfl
  | cons c cs ih =>
    cases h : splitOnChar sep cs with
    | nil => exact absurd h (splitOnChar_ne_nil sep cs)
    | cons p ps =>
      rw [h] at ih
      rw [splitOnChar_cons_eq sep c cs p ps h]
      by_cases hc : c = sep
      · subst hc
        rw [if_pos rfl, joinSep_cons₂, List.nil_append, ih]
      · rw [if_neg hc]
        cases ps with
        | nil =>
          simp only [joinSep] at ih ⊢
          rw [ih]
        | cons q qs =>
          rw [joinSep_cons₂] at ih ⊢
          rw [List.cons_append, ih]

theorem sep_not_mem_splitOnChar (sep : Char) (l : List Char) :
    ∀ p ∈ splitOnChar sep l, sep ∉ p := by
  induction l with
  | nil =>
    intro p hp
    simp [splitOnChar] at hp
    subst hp
    exact List.not_mem_nil sep
  | cons c cs ih =>
    intro p hp
    cases h : splitOnChar sep cs with
    | nil => exact absurd h (splitOnChar_ne_nil sep cs)
    | cons q qs =>
      rw [h] at ih
      rw [splitOnChar_cons_eq sep c cs q qs h] at hp
      by_cases hc : c = sep
      · subst hc
        rw [if_pos rfl] at hp
        rcases List.mem_cons.mp hp with hp1 | hp2
        · subst hp1; exact List.not_mem_nil c
        · exact ih p hp2
      · rw [if_neg hc] at hp
        rcases List.mem_cons.mp hp with hp1 | hp2
        · subst hp1
          intro hm
          rcases List.mem_cons.mp hm with hm1 | hm2
          · exact hc hm1.symm
          · exact ih q (List.mem_cons_self q qs) hm2
        · exact ih p (List.mem_cons_of_mem q hp2)

/-- Inverting a three-part split: the split string is the three parts joined
by the separator, and none of the parts contains the separator. -/
theorem splitOnChar_eq_three (sep : Char) (l t r s : List Char)
    (h : splitOnChar sep l = [t, r, s]) :
    l = t ++ sep :: (r ++ sep :: s) ∧ sep ∉ t ∧ sep ∉ r ∧ sep ∉ s := by
  have hj := joinSep_splitOnChar sep l
  rw [h] at hj
  have hm := sep_not_mem_splitOnChar sep l
  rw [h] at hm
  refine ⟨?_, ?_, ?_, ?_⟩
  · rw [← hj]
    simp [joinSep]
  · exact hm t (by simp)
  · exact hm r (by simp)
  · exact hm s (by simp)

/-- Injective, delimiter-free encoding of one character: its code point in
decimal followed by a `'-'` terminator. Models the role base64url plays in a
compact JWS: an invertible embedding of the signed content into a character
set disjoint from the delimiters the source splits on (`'|'` and `'.'`). -/
def encChar (c : Char) : List Char := natToDigits c.toNat ++ ['-']

/-- Delimiter-free encoding of a whole string (see `encChar`). -/
def encStr : List Char → List Char
  | [] => []
  | c :: cs => encChar c ++ encStr cs

/-- Decoder loop for `encStr`: `acc` is the value of the digit run read so
far, `seen` whether the current run is nonempty. -/
def decStrAux : List Char → Nat → Bool → Option (List Char)
  | [], _, seen => if seen then none else some []
  | c :: cs, acc, seen =>
    if c.isDigit then decStrAux cs (acc * 10 + digitVal c) true
    else if c = '-' then
      if seen then (decStrAux cs 0 false).map (fun l => Char.ofNat acc :: l)
      else none
    else none

/-- Decoder for `encStr`; `none` on any string that is not a valid encoding. -/
def decStr (l : List Char) : Option (List Char) := decStrAux l 0 false

theorem decStrAux_cons (c : Char) (cs : List Char) (acc : Nat) (b : Bool) :
    decStrAux (c :: cs) acc b =
      if c.isDigit then decStrAux cs (acc * 10 + digitVal c) true
      else if c = '-' then
        (if b then (decStrAux cs 0 false).map (fun l => Char.ofNat acc :: l) else none)
      else none := rfl

theorem decStrAux_digit_run :
    ∀ (ds : List Char) (rest : List Char) (acc : Nat) (b : Bool),
      (∀ c ∈ ds, c.isDigit = true) → ds ≠ [] →
      decStrAux (ds ++ '-' :: rest) acc b =
        (decStrAux rest 0 false).map (fun l => Char.ofNat (digitsValAux acc ds) :: l) := by
  intro ds
  induction ds with
  | nil => intro rest acc b _ hne; exact absurd rfl hne
  | cons c cs ih =>
    intro rest acc b hdig _
    have hc : c.isDigit = true := hdig c (List.mem_cons_self c cs)
    rw [List.cons_append, decStrAux_cons, if_pos hc]
    cases cs with
    | nil =>
      rw [List.nil_append, decStrAux_cons]
      rw [if_neg (by decide : ¬ (('-' : Char).isDigit = true))]
      rw [if_pos (rfl : ('-' : Char) = '-'), if_pos rfl]
      rfl
    | cons c2 cs2 =>
      rw [ih rest (acc * 10 + digitVal c) true
        (fun x hx => hdig x (List.mem_cons_of_mem c hx)) (by simp)]
      rfl

theorem decStr_encStr (s : List Char) : ∀ rest, decStrAux (encStr s ++ rest) 0 false =
    (decStrAux rest 0 false).map (fun l => s ++ l) := by
  induction s with
  | nil =>
    intro rest
    rw [encStr, List.nil_append]
    cases h : decStrAux rest 0 false <;> simp
  | cons c cs ih =>
    intro rest
    rw [encStr, encChar, List.append_assoc, List.append_assoc, List.singleton_append]
    rw [decStrAux_digit_run (natToDigits c.toNat) (encStr cs ++ rest) 0 false
      (fun x hx => mem_natToDigits_isDigit c.toNat x hx) (natToDigits_ne_nil c.toNat)]
    rw [ih rest]
    have hval : digitsValAux 0 (natToDigits c.toNat) = c.toNat := digitsVal_natToDigits c.toNat
    rw [hval, Char.ofNat_toNat]
    cases h : decStrAux rest 0 false <;> simp

theorem decStr_encStr_clean (s : List Char) : decStr (encStr s) = some s := by
  have h := decStr_encStr s []
  rw [List.append_nil] at h
  unfold decStr
  rw [h]
  simp [decStrAux]

theorem mem_encStr (s : List Char) :
    ∀ c ∈ encStr s, c.isDigit = true ∨ c = '-' := by
  induction s with
  | nil => intro c hc; simp [encStr] at hc
  | cons x xs ih =>
    intro c hc
    rw [encStr, encChar] at hc
    rcases List.mem_append.mp hc with h1 | h2
    · rcases List.mem_append.mp h1 with h3 | h4
      · exact Or.inl (mem_natToDigits_isDigit x.toNat c h3)
      · simp at h4
        exact Or.inr h4
    · exact ih c h2

theorem bar_not_mem_encStr (s : List Char) : '|' ∉ encStr s := by
  intro h
  rcases mem_encStr s '|' h with h1 | h1
  · exact absurd h1 (by decide)
  · exact absurd h1 (by decide)

theorem dot_not_mem_encStr (s : List Char) : '.' ∉ encStr s := by
  intro h
  rcases mem_encStr s '.' h with h1 | h1
  · exact absurd h1 (by decide)
  · exact absurd h1 (by decide)

theorem bar_not_mem_natToDigits (n : Nat) : '|' ∉ natToDigits n := by
  intro h
  exact absurd (mem_natToDigits_isDigit n '|' h) (by decide)

theorem dot_not_mem_natToDigits (n : Nat) : '.' ∉ natToDigits n := by
  intro h
  exact absurd (mem_natToDigits_isDigit n '.' h) (by decide)

/-- The MAC tag of the idealised HS256 JWT, as a character string: an
injective function of the secret and the signed content. Verification
recomputes this tag and compares it with the transported one, as HMAC
verification does; in the ideal model a tag can only match if both the
secret and the signed content match. -/
def tagEnc (secret : Nat) (payload : List Char) : List Char :=
  natToDigits secret ++ ':' :: encStr payload

/-- Model of `new jose.SignJWT({payload}).setProtectedHeader({alg})
.sign(secret)` for the nonce signature: the compact serialisation carrying
the (encoded) signed content and the MAC tag, `'.'`-separated. The constant
protected header is folded into the tag. -/
def jwsSerialize (secret : Nat) (payload : List Char) : List Char :=
  encStr payload ++ '.' :: tagEnc secret payload

/-- Model of `jose.jwtVerify(wire, secret)` for the nonce signature: parse
the compact serialisation, recompute the tag over the carried content with
the server secret and compare. `none` models a thrown verification error
(malformed wire, or tag mismatch). -/
def jwsVerify (secret : Nat) (wire : List Char) : Option (List Char) :=
  match splitOnChar '.' wire with
  | [pp, tt] =>
    match decStr pp with
    | some payload => if tt = tagEnc secret payload then some payload else none
    | none => none
  | _ => none

theorem bar_not_mem_tagEnc (secret : Nat) (payload : List Char) :
    '|' ∉ tagEnc secret payload := by
  intro h
  unfold tagEnc at h
  rcases List.mem_append.mp h with h1 | h2
  · exact bar_not_mem_natToDigits secret h1
  · rcases List.mem_cons.mp h2 with h3 | h4
    · exact absurd h3 (by decide)
    · exact bar_not_mem_encStr payload h4

theorem dot_not_mem_tagEnc (secret : Nat) (payload : List Char) :
    '.' ∉ tagEnc secret payload := by
  intro h
  unfold tagEnc at h
  rcases List.mem_append.mp h with h1 | h2
  · exact dot_not_mem_natToDigits secret h1
  · rcases List.mem_cons.mp h2 with h3 | h4
    · exact absurd h3 (by decide)
    · exact dot_not_mem_encStr payload h4

theorem bar_not_mem_jwsSerialize (secret : Nat) (payload : List Char) :
    '|' ∉ jwsSerialize secret payload := by
  intro h
  unfold jwsSerialize at h
  rcases List.mem_append.mp h with h1 | h2
  · exact bar_not_mem_encStr payload h1
  · rcases List.mem_cons.mp h2 with h3 | h4
    · exact absurd h3 (by decide)
    · exact bar_not_mem_tagEnc secret payload h4

theorem jwsVerify_jwsSerialize (secret : Nat) (payload : List Char) :
    jwsVerify secret (jwsSerialize secret payload) = some payload := by
  unfold jwsVerify jwsSerialize
  rw [splitOnChar_append_sep '.' (encStr payload) (tagEnc secret payload)
    (dot_not_mem_encStr payload)]
  rw [splitOnChar_no_sep '.' (tagEnc secret payload) (dot_not_mem_tagEnc secret payload)]
  simp [decStr_encStr_clean payload]

/-- The sixteen lowercase hex digit characters; `hexDigitChar d` is the digit
for `d < 16` (the catch-all mirrors a total function). -/
def hexDigitChar (d : Nat) : Char :=
  match d with
  | 0 => '0' | 1 => '1' | 2 => '2' | 3 => '3' | 4 => '4'
  | 5 => '5' | 6 => '6' | 7 => '7' | 8 => '8' | 9 => '9'
  | 10 => 'a' | 11 => 'b' | 12 => 'c' | 13 => 'd' | 14 => 'e' | _ => 'f'

/-- Model of `Array.from(bytes).map(b => b.toString(16).padStart(2, '0'))
.join('')`: each byte as two lowercase hex digits. -/
def hexOfBytes : List (Fin 256) → List Char
  | [] => []
  | b :: bs => hexDigitChar (b.val / 16) :: hexDigitChar (b.val % 16) :: hexOfBytes bs

theorem hexDigitChar_ne_bar (d : Nat) : hexDigitChar d ≠ '|' := by
  unfold hexDigitChar
  split <;> decide

theorem bar_not_mem_hexOfBytes (bs : List (Fin 256)) : '|' ∉ hexOfBytes bs := by
  induction bs with
  | nil => simp [hexOfBytes]
  | cons b rest ih =>
    intro h
    rw [hexOfBytes] at h
    rcases List.mem_cons.mp h with h1 | h2
    · exact hexDigitChar_ne_bar (b.val / 16) h1.symm
    · rcases List.mem_cons.mp h2 with h3 | h4
      · exact hexDigitChar_ne_bar (b.val % 16) h3.symm
      · exact ih h4

/-- Nonce expiry window: `5 * 60 * 1000` ms (`NONCE_EXPIRY_MS` in the
source). -/
def NONCE_EXPIRY_MS : Int := 5 * 60 * 1000

/-- Model of `createNonce` in `src/lib/auth.ts`. The implicit inputs of the
source — the clock reading `Date.now()` and the 16 random bytes drawn from
`crypto.getRandomValues` — are explicit parameters `now` and `rnd` (the
source always supplies 16 bytes; nothing below depends on the count).
Returns `timestamp|randomHex|signature`, where the signature is the HS256
JWT over the claim `payload = timestamp|randomHex`. -/
def createNonce (secret : Nat) (now : Nat) (rnd : List (Fin 256)) : List Char :=
  let timestamp := natToDigits now
  let randomHex := hexOfBytes rnd
  let payload := timestamp ++ '|' :: randomHex
  payload ++ '|' :: jwsSerialize secret payload

/-- Model of `validateNonce` in `src/lib/auth.ts`, with the clock reading
`Date.now()` as the explicit parameter `now`.

Checks, in source order: split on `'|'` into exactly three parts; verify
the JWT signature and compare its `payload` claim against
`timestamp|random`; parse the timestamp with `parseInt(timestamp, 10)` and
reject ages over the expiry window or more than 60 s in the future.

When `parseInt` yields `NaN` (`parseIntJs` yields `none`), the source's
comparisons `age > NONCE_EXPIRY_MS` and `age < -60000` are both false
(`NaN` compares false against everything in JavaScript), so the function
reaches `return true`; the `none` branch mirrors that. -/
def validateNonce (secret : Nat) (now : Nat) (nonce : List Char) : Bool :=
  match splitOnChar '|' nonce with
  | [timestamp, random, signature] =>
    match jwsVerify secret signature with
    | none => false
    | some verified =>
      if verified ≠ timestamp ++ '|' :: random then false
      else
        match parseIntJs timestamp with
        | none => true
        | some ts =>
          let age : Int := (now : Int) - ts
          if age > NONCE_EXPIRY_MS then false
          else if age < -60000 then false
          else true
  | _ => false

theorem validateNonce_three_parts (secret now : Nat) (nonce t r s : List Char)
    (h : splitOnChar '|' nonce = [t, r, s]) :
    validateNonce secret now nonce =
      (match jwsVerify secret s with
       | none => false
       | some verified =>
         if verified ≠ t ++ '|' :: r then false
         else
           match parseIntJs t with
           | none => true
           | some ts =>
             if (now : Int) - ts > NONCE_EXPIRY_MS then false
             else if (now : Int) - ts < -60000 then false
             else true) := by
  unfold validateNonce
  rw [h]

theorem validateNonce_not_three_parts (secret now : Nat) (nonce : List Char)
    (h : (splitOnChar '|' nonce).length ≠ 3) :
    validateNonce secret now nonce = false := by
  unfold validateNonce
  rcases hs : splitOnChar '|' nonce with _ | ⟨a, _ | ⟨b, _ | ⟨c, _ | ⟨d, e⟩⟩⟩⟩
  · rfl
  · rfl
  · rfl
  · rw [hs] at h; simp at h
  · rfl

/-- The split of a freshly created nonce: exactly the three fields. -/
theorem splitOnChar_createNonce (secret now : Nat) (rnd : List (Fin 256)) :
    splitOnChar '|' (createNonce secret now rnd) =
      [natToDigits now, hexOfBytes rnd,
       jwsSerialize secret (natToDigits now ++ '|' :: hexOfBytes rnd)] := by
  unfold createNonce
  rw [List.append_assoc, List.cons_append]
  rw [splitOnChar_append_sep '|' (natToDigits now) _ (bar_not_mem_natToDigits now)]
  rw [splitOnChar_append_sep '|' (hexOfBytes rnd) _ (bar_not_mem_hexOfBytes rnd)]
  rw [splitOnChar_no_sep '|' _ (bar_not_mem_jwsSerialize secret _)]

/-- Validation of a nonce created at time `T`, checked at time `now`: only
the age checks remain. -/
theorem validateNonce_createNonce (secret T now : Nat) (rnd : List (Fin 256)) :
    validateNonce secret now (createNonce secret T rnd) =
      (if (now : Int) - T > NONCE_EXPIRY_MS then false
       else if (now : Int) - T < -60000 then false
       else true) := by
  rw [validateNonce_three_parts secret now _ _ _ _ (splitOnChar_createNonce secret T rnd)]
  simp [jwsVerify_jwsSerialize, parseIntJs_natToDigits]

/-- The JWT claims set of an identity token, as the fields this code base can
produce or read: the custom `address` claim, and the registered `exp` and
`iat` claims (epoch seconds). `jose.SignJWT` puts into the claims set
exactly the object given to its constructor plus the claims added through
its setters: `setExpirationTime` adds `exp`; `iat` would be added only by
`setIssuedAt`, which `createToken` never calls. -/
structure TokenClaims where
  address : Option (List Char)
  exp : Option Int
  iat : Option Int
deriving DecidableEq

/-- The wire space of identity tokens (the strings handed to
`jose.jwtVerify`), split by parse outcome: a compact JWS carrying a claims
set and its MAC tag — the tag being, in the ideal-MAC model, the pair of
the signing secret and the signed claims — or anything that fails JWS
parsing. -/
inductive TokenWire where
  | jws (claims : TokenClaims) (tagSecret : Nat) (tagClaims : TokenClaims)
  | malformed (raw : List Char)
deriving DecidableEq

/-- The claims set carried by a wire, when it parses. -/
def tokenClaimsOf : TokenWire → Option TokenClaims
  | .jws c _ _ => some c
  | .malformed _ => none

/-- Model of `createToken` in `src/lib/auth.ts`:
`new jose.SignJWT({address}).setProtectedHeader({alg}).setExpirationTime(dur)
.sign(secret)` with a 24-hour duration. `now` is the epoch-seconds clock
reading `jose` resolves the duration against, so `exp = now + 86400`; no
`iat` claim is added (no `setIssuedAt` call). -/
def createToken (secret : Nat) (now : Int) (address : List Char) : TokenWire :=
  .jws ⟨some address, some (now + 86400), none⟩ secret
    ⟨some address, some (now + 86400), none⟩

/-- Model of `jose.jwtVerify(token, secret)` for identity tokens: `none`
models a thrown error (malformed wire, tag mismatch, or an `exp` claim at
or before `now`), `some` the returned payload. -/
def jwtVerifyTok (secret : Nat) (now : Int) : TokenWire → Option TokenClaims
  | .jws claims tagSecret tagClaims =>
    if tagSecret = secret ∧ tagClaims = claims then
      match claims.exp with
      | none => some claims
      | some e => if e ≤ now then none else some claims
    else none
  | .malformed _ => none

/-- Model of `verifyToken` in `src/lib/auth.ts`: `if (!token) return null`,
then `jose.jwtVerify` inside `try`/`catch` with `catch` returning `null`.
The `payload as {address: string}` cast checks nothing, so the returned
claims may lack an address. -/
def verifyToken (secret : Nat) (now : Int) (token : Option TokenWire) : Option TokenClaims :=
  match token with
  | none => none
  | some w => jwtVerifyTok secret now w

/-- Envelope submitted by the wallet: `0x`-prefixed hex strings. -/
structure SigEnvelope where
  signature : List Char
  publicKey : List Char

/-- Value of one hex digit character, `none` for a non-hex character. -/
def hexVal (c : Char) : Option Nat :=
  if c.isDigit then some (c.toNat - 48)
  else if 'a' ≤ c ∧ c ≤ 'f' then some (c.toNat - 87)
  else if 'A' ≤ c ∧ c ≤ 'F' then some (c.toNat - 55)
  else none

/-- Model of Node's `Buffer.from(str, 'hex')`: decode two-character pairs,
stopping (without error) at the first pair that is not two hex digits, a
trailing odd character included. -/
def hexDecodeJs : List Char → List Nat
  | c1 :: c2 :: rest =>
    (match hexVal c1, hexVal c2 with
     | some hi, some lo => (16 * hi + lo) :: hexDecodeJs rest
     | _, _ => [])
  | _ => []

/-- Model of `nacl.sign.detached.verify`: nacl first validates the argument
lengths, throwing `bad signature size` / `bad public key size` (modelled by
`Except.error`), and only then runs the Ed25519 check, kept abstract as
`core`. -/
def naclSignDetachedVerify (core : List Char → List Nat → List Nat → Bool)
    (msg : List Char) (sig pk : List Nat) : Except (List Char) Bool :=
  if sig.length ≠ 64 then .error ("bad signature size".toList)
  else if pk.length ≠ 32 then .error ("bad public key size".toList)
  else .ok (core msg sig pk)

/-- The body of `verifyWalletSignature` before its `catch`: slice off the
`0x` prefixes, hex-decode, run nacl; `if (!verified) return false; return
true` collapses to returning the nacl result. The claimed `address`
parameter is accepted and never used (the source's TODO marks deriving the
address from the public key as missing). -/
def verifyWalletSignatureE (core : List Char → List Nat → List Nat → Bool)
    (message : List Char) (signature : SigEnvelope) (address : List Char) :
    Except (List Char) Bool :=
  naclSignDetachedVerify core message
    (hexDecodeJs (signature.signature.drop 2))
    (hexDecodeJs (signature.publicKey.drop 2))

/-- Model of `verifyWalletSignature` in `src/lib/auth.ts`: the whole body is
wrapped in `try`/`catch`, and the `catch` returns `false`. -/
def verifyWalletSignature (core : List Char → List Nat → List Nat → Bool)
    (message : List Char) (signature : SigEnvelope) (address : List Char) : Bool :=
  match verifyWalletSignatureE core message signature address with
  | .ok b => b
  | .error _ => false

/-- The fixed message of `src/app/api/auth/create-jwt/route.ts`
(`AUTH_MESSAGE`). -/
def AUTH_MESSAGE : List Char :=
  ("Sign message to login to multiwallet. By signing this message, you agree to the Terms of Service and Privacy Policy of multiwallet at https://multiwallet.trade/tos").toList

/-- The `signature` object of the request body of POST `/create-jwt`, fields
optional as in any JSON body. -/
structure SigField where
  signature : Option (List Char)
  publicKey : Option (List Char)

/-- The request body of POST `/create-jwt`, fields optional. -/
structure JwtRequestBody where
  address : Option (List Char)
  signature : Option SigField
  nonce : Option (List Char)

/-- Response of POST `/create-jwt`: HTTP status plus the token of the JSON
body, when one is issued. -/
structure JwtResponse where
  status : Nat
  token : Option TokenWire
deriving DecidableEq

/-- Model of `POST` in `src/app/api/auth/create-jwt/route.ts`. JavaScript
truthiness of the string fields is explicit: a missing field or an empty
string is falsy (`!address || !signature || !nonce` and
`!signature.signature || !signature.publicKey` both return 400, jointly
covered by the nested matches and emptiness tests); a present `signature`
object is always truthy. `now` is the request-time clock: `validateNonce`
reads it in milliseconds, and the issued token's 24-hour expiry is
anchored at the same instant in epoch seconds (`now / 1000`). -/
def createJwtPOST (core : List Char → List Nat → List Nat → Bool)
    (secret : Nat) (now : Nat) (body : JwtRequestBody) : JwtResponse :=
  match body.address, body.signature, body.nonce with
  | some addr, some sigF, some nonce =>
    if addr.isEmpty || nonce.isEmpty then ⟨400, none⟩
    else
      match sigF.signature, sigF.publicKey with
      | some sigS, some pkS =>
        if sigS.isEmpty || pkS.isEmpty then ⟨400, none⟩
        else if !(validateNonce secret now nonce) then ⟨401, none⟩
        else if !(verifyWalletSignature core AUTH_MESSAGE ⟨sigS, pkS⟩ addr) then ⟨401, none⟩
        else ⟨200, some (createToken secret ((now : Int) / 1000) addr)⟩
      | _, _ => ⟨400, none⟩
  | _, _, _ => ⟨400, none⟩

/-- Response of GET `/check`. -/
structure CheckResponse where
  status : Nat
  authenticated : Bool
  address : Option (List Char)
deriving DecidableEq

/-- Model of `GET` in `src/app/api/auth/check/route.ts`: read the
`authToken` cookie, 401 `{authenticated:false}` when it is absent or fails
`verifyToken`, otherwise 200 with the verified payload's address — which
the route reads off without checking it exists. -/
def checkGET (secret : Nat) (now : Int) (cookie : Option TokenWire) : CheckResponse :=
  match cookie with
  | none => ⟨401, false, none⟩
  | some w =>
    match verifyToken secret now (some w) with
    | none => ⟨401, false, none⟩
    | some p => ⟨200, true, p.address⟩

/-! ## Claim theorems -/

/-- A stand-in Ed25519 core for concrete instances: the claims proved below
hold for every core, so any choice will do. -/
def coreTrue : List Char → List Nat → List Nat → Bool := fun _ _ _ => true

theorem set_ne_of_ne {α : Type} :
    ∀ (l : List α) (i : Nat) (c : α) (hi : i < l.length),
      c ≠ l.get ⟨i, hi⟩ → l.set i c ≠ l := by
  intro l
  induction l with
  | nil => intro i c hi; simp at hi
  | cons x xs ih =>
    intro i c hi hc
    cases i with
    | zero =>
      intro h
      rw [List.set] at h
      exact hc (List.cons.inj h).1
    | succ j =>
      intro h
      rw [List.set] at h
      have hj : j < xs.length := by
        simp only [List.length_cons] at hi
        omega
      exact ih j c hj hc (List.cons.inj h).2

/-- C4: `verifyWalletSignature(message, signature, address)` never reads the
claimed address: its result is identical for any two addresses (and for
every Ed25519 core), so it never checks that the public key derives to the
claimed address. -/
theorem verifyWalletSignature_ignores_address
    (core : List Char → List Nat → List Nat → Bool) (message : List Char)
    (signature : SigEnvelope) (a1 a2 : List Char) :
    verifyWalletSignature core message signature a1 =
      verifyWalletSignature core message signature a2 := rfl

/-- C5: the nonce round-trip. A nonce created at clock reading `now` (with
any random bytes) validates at the same clock reading, and its wire string
splits on `'|'` into exactly three parts — the delimiter occurs in none of
the three field encodings. -/
theorem createNonce_validateNonce_roundtrip (secret now : Nat) (rnd : List (Fin 256)) :
    validateNonce secret now (createNonce secret now rnd) = true ∧
    (splitOnChar '|' (createNonce secret now rnd)).length = 3 := by
  constructor
  · rw [validateNonce_createNonce]
    rw [if_neg (by unfold NONCE_EXPIRY_MS; omega), if_neg (by omega)]
  · rw [splitOnChar_createNonce]
    rfl

theorem jwtVerifyTok_jws (secret : Nat) (now : Int) (claims : TokenClaims)
    (ts : Nat) (tc : TokenClaims) :
    jwtVerifyTok secret now (.jws claims ts tc) =
      if ts = secret ∧ tc = claims then
        (match claims.exp with
         | none => some claims
         | some e => if e ≤ now then none else some claims)
      else none := rfl

/-- C7: the token round-trip. For every address, verifying a token issued
for that address at the same instant (well before the 24-hour expiry)
returns a payload whose `address` claim is that address. -/
theorem verifyToken_createToken_roundtrip (secret : Nat) (now : Int) (address : List Char) :
    ∃ p, verifyToken secret now (some (createToken secret now address)) = some p ∧
      p.address = some address := by
  refine ⟨⟨some address, some (now + 86400), none⟩, ?_, rfl⟩
  show jwtVerifyTok secret now (createToken secret now address) = _
  unfold createToken
  rw [jwtVerifyTok_jws, if_pos ⟨rfl, rfl⟩]
  show (if now + 86400 ≤ now then none else
    some (⟨some address, some (now + 86400), none⟩ : TokenClaims)) = _
  rw [if_neg (by omega)]

/-- C8: `verifyToken` returns `null` — uniformly, and without any exception
reaching the caller — on every absent token, every token whose MAC does not
verify under the server secret, every expired token, and every malformed
token. -/
theorem verifyToken_null_on_invalid (secret : Nat) (now : Int) (token : Option TokenWire) :
    (token = none ∨
     (∃ raw, token = some (.malformed raw)) ∨
     (∃ c ts tc, token = some (.jws c ts tc) ∧ ¬(ts = secret ∧ tc = c)) ∨
     (∃ c ts tc e, token = some (.jws c ts tc) ∧ c.exp = some e ∧ e ≤ now)) →
    verifyToken secret now token = none := by
  intro h
  rcases h with rfl | ⟨raw, rfl⟩ | ⟨c, ts, tc, rfl, hbad⟩ | ⟨c, ts, tc, e, rfl, hexp, hle⟩
  · rfl
  · rfl
  · show jwtVerifyTok secret now (.jws c ts tc) = none
    rw [jwtVerifyTok_jws, if_neg hbad]
  · show jwtVerifyTok secret now (.jws c ts tc) = none
    rw [jwtVerifyTok_jws]
    by_cases htag : ts = secret ∧ tc = c
    · rw [if_pos htag, hexp]
      show (if e ≤ now then none else some c) = none
      rw [if_pos hle]
    · rw [if_neg htag]

theorem verifyToken_null_on_invalid_witness :
    (some (TokenWire.malformed []) = none ∨
     (∃ raw, some (TokenWire.malformed []) = some (.malformed raw)) ∨
     (∃ c ts tc, some (TokenWire.malformed []) = some (.jws c ts tc) ∧ ¬(ts = 0 ∧ tc = c)) ∨
     (∃ c ts tc e, some (TokenWire.malformed []) = some (.jws c ts tc) ∧
        c.exp = some e ∧ e ≤ (0 : Int))) ∧
    verifyToken 0 0 (some (TokenWire.malformed [])) = none :=
  ⟨Or.inr (Or.inl ⟨[], rfl⟩),
   verifyToken_null_on_invalid 0 0 (some (TokenWire.malformed [])) (Or.inr (Or.inl ⟨[], rfl⟩))⟩

/-- C9 counterexample: the claims set of a token issued at time 0 for
address `"a"` is `{address, exp}` with no `iat` — the issuance time is not
encoded as a claim, contrary to the claim that every issued token encodes
`issuedAt`. (`jose.SignJWT` adds `iat` only through `setIssuedAt`, which
`createToken` never calls.) -/
theorem createToken_encodes_no_issuedAt_cx :
    tokenClaimsOf (createToken 0 0 (['a'] : List Char)) =
      some ⟨some ['a'], some 86400, none⟩ ∧
    ¬∃ p, tokenClaimsOf (createToken 0 0 (['a'] : List Char)) = some p ∧
      p.iat = some 0 := by
  constructor
  · rfl
  · rintro ⟨p, hp, hi⟩
    have hp2 : some (⟨some ['a'], some 86400, none⟩ : TokenClaims) = some p := hp
    have hp3 : p = ⟨some ['a'], some 86400, none⟩ := (Option.some.inj hp2).symm
    subst hp3
    simp at hi

/-- C9 (amended): every token issued by `createToken` encodes the address
claim and an absolute expiry equal to the issuance time plus 24 hours, MAC-
signed under the server secret (HS256 semantics); the issuance time itself
is not recorded as a claim. -/
theorem createToken_claims_shape (secret : Nat) (now : Int) (address : List Char) :
    createToken secret now address =
      .jws ⟨some address, some (now + 86400), none⟩ secret
        ⟨some address, some (now + 86400), none⟩ := rfl

/-- C10: a token that is validly MAC-signed under the server secret and
unexpired but carries no `address` claim is accepted: `verifyToken` returns
its payload (with no address), and GET `/check` answers 200 with
`authenticated: true` and an absent address. -/
theorem verifyToken_accepts_missing_address_claim :
    verifyToken 0 0 (some (.jws ⟨none, some 1, none⟩ 0 ⟨none, some 1, none⟩)) =
      some ⟨none, some 1, none⟩ ∧
    checkGET 0 0 (some (.jws ⟨none, some 1, none⟩ 0 ⟨none, some 1, none⟩)) =
      ⟨200, true, none⟩ := by
  constructor <;> rfl

/-- C3 counterexample: a malformed-hex envelope (`"0xzz"` signature, `"0x"`
public key) makes the inner computation raise (`bad signature size`, after
the permissive hex decode yields too few bytes) — but `verifyWalletSignature`
itself catches it and returns `false`. The caller receives `false`, not an
exception, contrary to the claim that the verifier raises and the caller
must catch. -/
theorem verifyWalletSignature_malformed_hex_cx :
    verifyWalletSignatureE coreTrue ['m'] ⟨("0xzz").toList, ("0x").toList⟩ ['a'] =
      .error (("bad signature size").toList) ∧
    verifyWalletSignature coreTrue ['m'] ⟨("0xzz").toList, ("0x").toList⟩ ['a'] = false := by
  constructor <;> rfl

/-- C3 (amended): a malformed hex envelope whose decoded signature or public
key has the wrong length causes an internal exception (nacl's size check),
which `verifyWalletSignature` catches itself, returning `false`; no
exception propagates to the caller. -/
theorem verifyWalletSignature_catches_malformed_hex
    (core : List Char → List Nat → List Nat → Bool)
    (message sigS pkS addr : List Char)
    (h : (hexDecodeJs (sigS.drop 2)).length ≠ 64 ∨
         (hexDecodeJs (pkS.drop 2)).length ≠ 32) :
    (∃ e, verifyWalletSignatureE core message ⟨sigS, pkS⟩ addr = .error e) ∧
    verifyWalletSignature core message ⟨sigS, pkS⟩ addr = false := by
  unfold verifyWalletSignature verifyWalletSignatureE naclSignDetachedVerify
  by_cases h64 : (hexDecodeJs (sigS.drop 2)).length ≠ 64
  · rw [if_pos h64]
    exact ⟨⟨("bad signature size").toList, rfl⟩, rfl⟩
  · have h32 : (hexDecodeJs (pkS.drop 2)).length ≠ 32 := by tauto
    rw [if_neg h64, if_pos h32]
    exact ⟨⟨("bad public key size").toList, rfl⟩, rfl⟩

theorem verifyWalletSignature_catches_malformed_hex_witness :
    ((hexDecodeJs ((("0xzz").toList).drop 2)).length ≠ 64 ∨
     (hexDecodeJs ((("0x").toList).drop 2)).length ≠ 32) ∧
    ((∃ e, verifyWalletSignatureE coreTrue ['m'] ⟨("0xzz").toList, ("0x").toList⟩ ['a'] =
        .error e) ∧
     verifyWalletSignature coreTrue ['m'] ⟨("0xzz").toList, ("0x").toList⟩ ['a'] = false) :=
  ⟨by decide,
   verifyWalletSignature_catches_malformed_hex coreTrue ['m'] (("0xzz").toList)
     (("0x").toList) ['a'] (by decide)⟩

theorem isEmpty_false_of_ne_nil {l : List Char} (h : l ≠ []) : l.isEmpty = false := by
  cases l with
  | nil => exact absurd rfl h
  | cons a t => rfl

/-- One-step reduction of the POST `/create-jwt` handler once all fields are
present. -/
theorem createJwtPOST_all_present (core : List Char → List Nat → List Nat → Bool)
    (secret now : Nat) (addr sigS pkS nonce : List Char)
    (ha : addr ≠ []) (hsg : sigS ≠ []) (hpk : pkS ≠ []) (hn : nonce ≠ []) :
    createJwtPOST core secret now ⟨some addr, some ⟨some sigS, some pkS⟩, some nonce⟩ =
      (if !(validateNonce secret now nonce) then ⟨401, none⟩
       else if !(verifyWalletSignature core AUTH_MESSAGE ⟨sigS, pkS⟩ addr) then ⟨401, none⟩
       else ⟨200, some (createToken secret ((now : Int) / 1000) addr)⟩) := by
  show (if addr.isEmpty || nonce.isEmpty then (⟨400, none⟩ : JwtResponse)
    else if sigS.isEmpty || pkS.isEmpty then ⟨400, none⟩
    else if !(validateNonce secret now nonce) then ⟨401, none⟩
    else if !(verifyWalletSignature core AUTH_MESSAGE ⟨sigS, pkS⟩ addr) then ⟨401, none⟩
    else ⟨200, some (createToken secret ((now : Int) / 1000) addr)⟩) = _
  rw [isEmpty_false_of_ne_nil ha, isEmpty_false_of_ne_nil hn,
    isEmpty_false_of_ne_nil hsg, isEmpty_false_of_ne_nil hpk]
  rfl

/-- A well-formed `0x`-prefixed hex signature string: 64 zero bytes. -/
def sig0 : List Char := '0' :: 'x' :: List.replicate 128 '0'

/-- A well-formed `0x`-prefixed hex public-key string: 32 zero bytes. -/
def pk0 : List Char := '0' :: 'x' :: List.replicate 64 '0'

/-- C1: the POST `/create-jwt` decision. With all of `address`,
`signature.signature`, `signature.publicKey` and `nonce` present (and
nonempty, since the source tests JavaScript truthiness), the route answers
200 and returns a token exactly when `validateNonce(nonce)` and
`verifyWalletSignature(AUTH_MESSAGE, signature, address)` both succeed;
when either fails it answers 401 with no token; and whenever `address`,
`signature` or `nonce` is missing from the body it answers 400 with no
token. -/
theorem create_jwt_route_auth_decision
    (core : List Char → List Nat → List Nat → Bool) (secret now : Nat) :
    (∀ addr sigS pkS nonce : List Char, addr ≠ [] → sigS ≠ [] → pkS ≠ [] → nonce ≠ [] →
      (((createJwtPOST core secret now
            ⟨some addr, some ⟨some sigS, some pkS⟩, some nonce⟩).status = 200 ∧
        (createJwtPOST core secret now
            ⟨some addr, some ⟨some sigS, some pkS⟩, some nonce⟩).token.isSome = true) ↔
        (validateNonce secret now nonce = true ∧
         verifyWalletSignature core AUTH_MESSAGE ⟨sigS, pkS⟩ addr = true)) ∧
      (¬(validateNonce secret now nonce = true ∧
         verifyWalletSignature core AUTH_MESSAGE ⟨sigS, pkS⟩ addr = true) →
        (createJwtPOST core secret now
            ⟨some addr, some ⟨some sigS, some pkS⟩, some nonce⟩).status = 401 ∧
        (createJwtPOST core secret now
            ⟨some addr, some ⟨some sigS, some pkS⟩, some nonce⟩).token = none)) ∧
    (∀ (oaddr : Option (List Char)) (osig : Option SigField) (ononce : Option (List Char)),
      oaddr = none ∨ osig = none ∨ ononce = none →
      (createJwtPOST core secret now ⟨oaddr, osig, ononce⟩).status = 400 ∧
      (createJwtPOST core secret now ⟨oaddr, osig, ononce⟩).token = none) := by
  constructor
  · intro addr sigS pkS nonce ha hsg hpk hn
    rw [createJwtPOST_all_present core secret now addr sigS pkS nonce ha hsg hpk hn]
    by_cases hv : validateNonce secret now nonce = true
    · by_cases hw : verifyWalletSignature core AUTH_MESSAGE ⟨sigS, pkS⟩ addr = true
      · refine ⟨?_, fun hcon => absurd ⟨hv, hw⟩ hcon⟩
        simp [hv, hw]
      · have hw2 : verifyWalletSignature core AUTH_MESSAGE ⟨sigS, pkS⟩ addr = false :=
          Bool.eq_false_iff.mpr hw
        refine ⟨?_, fun _ => ?_⟩
        · simp [hv, hw2]
        · simp [hv, hw2]
    · have hv2 : validateNonce secret now nonce = false :=
        Bool.eq_false_iff.mpr hv
      refine ⟨?_, fun _ => ?_⟩
      · simp [hv2]
      · simp [hv2]
  · intro oaddr osig ononce h
    rcases h with h | h | h
    · subst h
      exact ⟨rfl, rfl⟩
    · subst h
      cases oaddr <;> exact ⟨rfl, rfl⟩
    · subst h
      cases oaddr <;> cases osig <;> exact ⟨rfl, rfl⟩

theorem create_jwt_route_auth_decision_witness :
    ((['a'] : List Char) ≠ [] ∧ sig0 ≠ [] ∧ pk0 ≠ [] ∧ (['x'] : List Char) ≠ []) ∧
    ((((createJwtPOST coreTrue 0 0
          ⟨some ['a'], some ⟨some sig0, some pk0⟩, some ['x']⟩).status = 200 ∧
       (createJwtPOST coreTrue 0 0
          ⟨some ['a'], some ⟨some sig0, some pk0⟩, some ['x']⟩).token.isSome = true) ↔
       (validateNonce 0 0 ['x'] = true ∧
        verifyWalletSignature coreTrue AUTH_MESSAGE ⟨sig0, pk0⟩ ['a'] = true)) ∧
     ((createJwtPOST coreTrue 0 0
          ⟨some ['a'], some ⟨some sig0, some pk0⟩, some ['x']⟩).status = 401 ∧
      (createJwtPOST coreTrue 0 0
          ⟨some ['a'], some ⟨some sig0, some pk0⟩, some ['x']⟩).token = none)) ∧
    ((createJwtPOST coreTrue 0 0 ⟨none, none, none⟩).status = 400 ∧
     (createJwtPOST coreTrue 0 0 ⟨none, none, none⟩).token = none) :=
  have h := create_jwt_route_auth_decision coreTrue 0 0
  have hp := h.1 ['a'] sig0 pk0 ['x'] (by decide) (by decide) (by decide) (by decide)
  ⟨⟨by decide, by decide, by decide, by decide⟩,
   ⟨hp.1, hp.2 (by decide)⟩, h.2 none none none (Or.inl rfl)⟩

/-- A nonce that validates has a signature segment that verifies to exactly
`timestamp|random`. -/
theorem validateNonce_true_jws (secret now : Nat) (nonce t r s : List Char)
    (hsplit : splitOnChar '|' nonce = [t, r, s])
    (hvalid : validateNonce secret now nonce = true) :
    jwsVerify secret s = some (t ++ '|' :: r) := by
  rw [validateNonce_three_parts secret now nonce t r s hsplit] at hvalid
  cases hj : jwsVerify secret s with
  | none => simp [hj] at hvalid
  | some v =>
    simp only [hj] at hvalid
    by_cases hv : v = t ++ '|' :: r
    · rw [hv]
    · rw [if_pos hv] at hvalid
      exact absurd hvalid (by simp)

/-- C6: tamper sensitivity. For a valid nonce with segments
`timestamp|random|signature`, replacing any single character of the
timestamp segment or of the random segment (leaving the signature segment
unchanged) makes `validateNonce` return false, at every clock reading: the
signed payload inside the MAC no longer matches the altered
`timestamp|random` (and a replacement by the delimiter itself breaks the
three-part format). -/
theorem validateNonce_tamper_sensitive (secret now : Nat) (nonce t r s : List Char)
    (hvalid : validateNonce secret now nonce = true)
    (hsplit : splitOnChar '|' nonce = [t, r, s]) :
    (∀ (i : Nat) (c : Char) (hi : i < t.length), c ≠ t.get ⟨i, hi⟩ →
       ∀ now2, validateNonce secret now2 (t.set i c ++ '|' :: (r ++ '|' :: s)) = false) ∧
    (∀ (j : Nat) (d : Char) (hj : j < r.length), d ≠ r.get ⟨j, hj⟩ →
       ∀ now2, validateNonce secret now2 (t ++ '|' :: (r.set j d ++ '|' :: s)) = false) := by
  obtain ⟨hjoin, hnt, hnr, hns⟩ := splitOnChar_eq_three '|' nonce t r s hsplit
  have hjws : jwsVerify secret s = some (t ++ '|' :: r) :=
    validateNonce_true_jws secret now nonce t r s hsplit hvalid
  have hr0 : r.count '|' = 0 := List.count_eq_zero.mpr hnr
  have hs0 : s.count '|' = 0 := List.count_eq_zero.mpr hns
  have ht0 : t.count '|' = 0 := List.count_eq_zero.mpr hnt
  constructor
  · intro i c hi hc now2
    by_cases hbar : '|' ∈ t.set i c
    · apply validateNonce_not_three_parts
      rw [splitOnChar_length]
      have h1 : (t.set i c).count '|' ≠ 0 := by
        rw [Ne, List.count_eq_zero]
        exact fun hno => hno hbar
      rw [List.count_append, List.count_cons_self, List.count_append,
        List.count_cons_self, hr0, hs0]
      omega
    · have hsplit2 : splitOnChar '|' (t.set i c ++ '|' :: (r ++ '|' :: s)) =
          [t.set i c, r, s] := by
        rw [splitOnChar_append_sep '|' _ _ hbar,
          splitOnChar_append_sep '|' _ _ hnr,
          splitOnChar_no_sep '|' s hns]
      rw [validateNonce_three_parts secret now2 _ (t.set i c) r s hsplit2]
      simp only [hjws]
      have hne : t ++ '|' :: r ≠ t.set i c ++ '|' :: r := by
        intro he
        have h2 : t = t.set i c := List.append_cancel_right he
        exact set_ne_of_ne t i c hi hc h2.symm
      rw [if_pos hne]
  · intro j d hj hc now2
    by_cases hbar : '|' ∈ r.set j d
    · apply validateNonce_not_three_parts
      rw [splitOnChar_length]
      have h1 : (r.set j d).count '|' ≠ 0 := by
        rw [Ne, List.count_eq_zero]
        exact fun hno => hno hbar
      rw [List.count_append, List.count_cons_self, List.count_append,
        List.count_cons_self, ht0, hs0]
      omega
    · have hsplit2 : splitOnChar '|' (t ++ '|' :: (r.set j d ++ '|' :: s)) =
          [t, r.set j d, s] := by
        rw [splitOnChar_append_sep '|' _ _ hnt,
          splitOnChar_append_sep '|' _ _ hbar,
          splitOnChar_no_sep '|' s hns]
      rw [validateNonce_three_parts secret now2 _ t (r.set j d) s hsplit2]
      simp only [hjws]
      have hne : t ++ '|' :: r ≠ t ++ '|' :: r.set j d := by
        intro he
        have h2 : ('|' :: r : List Char) = '|' :: r.set j d := List.append_cancel_left he
        have h3 : r = r.set j d := (List.cons.inj h2).2
        exact set_ne_of_ne r j d hj hc h3.symm
      rw [if_pos hne]

theorem validateNonce_tamper_sensitive_witness :
    validateNonce 0 0 (List.set (natToDigits 0) 0 '1' ++ '|' ::
      (hexOfBytes [(0 : Fin 256)] ++ '|' ::
        jwsSerialize 0 (natToDigits 0 ++ '|' :: hexOfBytes [(0 : Fin 256)]))) = false :=
  (validateNonce_tamper_sensitive 0 0 (createNonce 0 0 [(0 : Fin 256)])
      (natToDigits 0) (hexOfBytes [(0 : Fin 256)])
      (jwsSerialize 0 (natToDigits 0 ++ '|' :: hexOfBytes [(0 : Fin 256)]))
      (by decide) (by decide)).1 0 '1' (by decide) (by decide) 0

/-- C2: `validateNonce` returns false exactly when the string does not split
on `'|'` into three parts, or the signature segment does not verify as an
authentic MAC over `timestamp|random` under the server secret, or the
parsed timestamp gives an age above 5 minutes, or one below −60 seconds
(more than 60 s in the future); and the expiry boundary behaves as claimed:
a nonce created at `T` fails at `T + 5 min + 1 ms` and passes at
`T + 4 min 59 s`. (The age conditions quantify over a parsed timestamp: for
a timestamp `parseInt` cannot read, `NaN` compares false against both
bounds in the source and the nonce passes the age checks, matching the
absence of an age here.) -/
theorem validateNonce_false_iff :
    (∀ secret now : Nat, ∀ nonce : List Char,
      validateNonce secret now nonce = false ↔
        ((splitOnChar '|' nonce).length ≠ 3 ∨
         ∃ t r s, splitOnChar '|' nonce = [t, r, s] ∧
           (jwsVerify secret s ≠ some (t ++ '|' :: r) ∨
            (∃ ts, parseIntJs t = some ts ∧ (now : Int) - ts > NONCE_EXPIRY_MS) ∨
            (∃ ts, parseIntJs t = some ts ∧ (now : Int) - ts < -60000)))) ∧
    (∀ secret T : Nat, ∀ rnd : List (Fin 256),
      validateNonce secret (T + 300001) (createNonce secret T rnd) = false ∧
      validateNonce secret (T + 299000) (createNonce secret T rnd) = true) := by
  constructor
  · intro secret now nonce
    by_cases hlen : (splitOnChar '|' nonce).length = 3
    · obtain ⟨t, r, s, hs⟩ : ∃ t r s, splitOnChar '|' nonce = [t, r, s] := by
        rcases h0 : splitOnChar '|' nonce with _ | ⟨a, _ | ⟨b, _ | ⟨c, _ | ⟨d, e⟩⟩⟩⟩
        · rw [h0] at hlen; simp at hlen
        · rw [h0] at hlen; simp at hlen
        · rw [h0] at hlen; simp at hlen
        · exact ⟨a, b, c, rfl⟩
        · rw [h0] at hlen; simp at hlen
      rw [validateNonce_three_parts secret now nonce t r s hs]
      constructor
      · intro hF
        refine Or.inr ⟨t, r, s, hs, ?_⟩
        cases hj : jwsVerify secret s with
        | none => exact Or.inl (by simp)
        | some v =>
          simp only [hj] at hF
          by_cases hv : v = t ++ '|' :: r
          · rw [if_neg (fun hne => hne hv)] at hF
            cases hp : parseIntJs t with
            | none =>
              simp only [hp] at hF
              exact absurd hF (by simp)
            | some ts =>
              simp only [hp] at hF
              by_cases h1 : (now : Int) - ts > NONCE_EXPIRY_MS
              · exact Or.inr (Or.inl ⟨ts, rfl, h1⟩)
              · rw [if_neg h1] at hF
                by_cases h2 : (now : Int) - ts < -60000
                · exact Or.inr (Or.inr ⟨ts, rfl, h2⟩)
                · rw [if_neg h2] at hF
                  exact absurd hF (by simp)
          · exact Or.inl (by simp [hv])
      · intro hR
        rcases hR with hbad | ⟨t2, r2, s2, heq, hD⟩
        · exact absurd hlen hbad
        · rw [hs] at heq
          obtain ⟨h1, h2, h3⟩ : t = t2 ∧ r = r2 ∧ s = s2 := by simpa using heq
          subst h1
          subst h2
          subst h3
          rcases hD with hD | ⟨ts, hp, hgt⟩ | ⟨ts, hp, hlt⟩
          · cases hj : jwsVerify secret s with
            | none => simp [hj]
            | some v =>
              have hv : v ≠ t ++ '|' :: r := by
                intro he
                exact hD (by rw [hj, he])
              simp only [hj]
              rw [if_pos hv]
          · cases hj : jwsVerify secret s with
            | none => simp [hj]
            | some v =>
              simp only [hj]
              by_cases hv : v = t ++ '|' :: r
              · rw [if_neg (fun hne => hne hv)]
                simp only [hp]
                rw [if_pos hgt]
              · rw [if_pos hv]
          · cases hj : jwsVerify secret s with
            | none => simp [hj]
            | some v =>
              simp only [hj]
              by_cases hv : v = t ++ '|' :: r
              · rw [if_neg (fun hne => hne hv)]
                simp only [hp]
                have hngt : ¬((now : Int) - ts > NONCE_EXPIRY_MS) := by
                  unfold NONCE_EXPIRY_MS
                  omega
                rw [if_neg hngt, if_pos hlt]
              · rw [if_pos hv]
    · constructor
      · intro _
        exact Or.inl hlen
      · intro _
        exact validateNonce_not_three_parts secret now nonce hlen
  · intro secret T rnd
    constructor
    · rw [validateNonce_createNonce]
      rw [if_pos (by unfold NONCE_EXPIRY_MS; push_cast; omega)]
    · rw [validateNonce_createNonce]
      rw [if_neg (by unfold NONCE_EXPIRY_MS; push_cast; omega),
        if_neg (by push_cast; omega)]

end SupraAuth
